import Mathlib

/-!
Shallow embedding of `stan/math/prim/scal/prob/inv_chi_square_cdf.hpp`:
the inverse chi-square CDF kernel computing a product of per-element
probabilities together with per-argument gradient buffers.  Finite scalar
arithmetic is exact rational arithmetic; the IEEE special values the kernel
branches on (`0`, `+∞`, `NaN`) are explicit constructors; the special
functions (`gamma_q`, `grad_reg_inc_gamma`, `tgamma`, `digamma`, `exp`,
`pow`) are abstract external collaborators.
-/

namespace StanMath

/-- Scalar value domain: finite rationals extended with the IEEE special
values the kernel branches on (`+∞`, `-∞`, `NaN`). -/
inductive Val where
  | fin (q : ℚ)
  | inf
  | ninf
  | nan
deriving DecidableEq

/-- An argument of the CDF: a single scalar or an ordered sequence
(the C++ `T_y` / `T_dof` being a scalar type or `std::vector`). -/
inductive Arg where
  | scalar (v : Val)
  | vec (vs : List Val)
deriving DecidableEq

/-- stan::length: a scalar has length 1, a sequence its own length. -/
def Arg.length : Arg → Nat
  | .scalar _ => 1
  | .vec vs => vs.length

/-- Element access by the argument's own index. -/
def Arg.elem : Arg → Nat → Val
  | .scalar v, _ => v
  | .vec vs, i => vs.getD i .nan

/-- Modelled from the spec: the underlying-element index a broadcast
position `n` maps back to — direct indexing when the argument's length
matches the broadcast length, index-0 replication when the length is 1
(spec §4.1, §5).  The C++ `scalar_seq_view` / `broadcast_array` /
`VectorBuilder` machinery realising this is external to the source file. -/
def Arg.slot (a : Arg) (n : Nat) : Nat :=
  if a.length = 1 then 0 else n

/-- Modelled from the spec: `scalar_seq_view` element access at broadcast
position `n` (spec §4.1). -/
def Arg.view (a : Arg) (n : Nat) : Val :=
  a.elem (a.slot n)

/-- Modelled from the spec: `check_positive_finite` element predicate —
strictly positive and finite (spec §4.2). -/
def Val.posFinite : Val → Bool
  | .fin q => decide (0 < q)
  | _ => false

/-- Modelled from the spec: `check_not_nan` element predicate (spec §4.2). -/
def Val.notNaN : Val → Bool
  | .nan => false
  | _ => true

/-- Modelled from the spec: `check_nonnegative` element predicate; `+∞`
counts as non-negative (spec §4.2). -/
def Val.nonneg : Val → Bool
  | .fin q => decide (0 ≤ q)
  | .inf => true
  | _ => false

/-- The comparison `value_of(y_vec[i]) == 0`: true only for the finite
value 0 (IEEE comparisons against NaN are false, and ±∞ are nonzero). -/
def Val.isZero : Val → Bool
  | .fin q => decide (q = 0)
  | _ => false

/-- value_of, as the rational payload of a finite value (the kernel only
reads it where validation and the edge-case guards ensure finiteness). -/
def Val.toQ : Val → ℚ
  | .fin q => q
  | _ => 0

/-- Run an element predicate over every element of an argument. -/
def Arg.all (a : Arg) (p : Val → Bool) : Bool :=
  match a with
  | .scalar v => p v
  | .vec vs => vs.all p

/-- stan::math::size_zero: true when either argument has length 0. -/
def size_zero (y nu : Arg) : Bool :=
  decide (y.length = 0) || decide (nu.length = 0)

/-- Modelled from the spec: `check_consistent_sizes` — every argument's
length must equal the broadcast length `N = max(len y, len nu)` or `1`
(spec §4.1). -/
def consistentSizes (y nu : Arg) : Bool :=
  (decide (y.length = max y.length nu.length) || decide (y.length = 1))
    && (decide (nu.length = max y.length nu.length) || decide (nu.length = 1))

/-- External special-function collaborators (spec §6): the regularized
upper incomplete gamma function `Q`, its gradient in the first argument,
`Γ`, `ψ`, and the `<cmath>` `exp` / `pow` used by the y-gradient term.
They are abstract parameters of the embedding. -/
structure Ext where
  gamma_q : ℚ → ℚ → ℚ
  grad_reg_inc_gamma : ℚ → ℚ → ℚ → ℚ → ℚ
  tgamma : ℚ → ℚ
  digamma : ℚ → ℚ
  exp : ℚ → ℚ
  pow : ℚ → ℚ → ℚ

/-- The two error classes of spec §7. -/
inductive Err where
  | domainError
  | invalidArgumentError
deriving DecidableEq

/-- Return value of a call: the probability and, for each argument that
was marked differentiable, its per-element gradient buffer (absent, not
zero, when the argument is a constant). -/
structure CdfResult where
  value : ℚ
  grad_y : Option (List ℚ)
  grad_nu : Option (List ℚ)
deriving DecidableEq

/-- Accumulator state of the main loop: the running product `P` and the
gradient buffers of `operands_and_partials` (zero-initialised, one slot
per underlying element of the corresponding argument). -/
structure LoopState where
  P : ℚ
  gy : List ℚ
  gnu : List ℚ
deriving DecidableEq

/-- Read a gradient slot (0 outside the buffer). -/
def getQ (xs : List ℚ) (k : Nat) : ℚ :=
  xs.getD k 0

/-- The in-place accumulation `buf[i] += v`. -/
def addAt (xs : List ℚ) (i : Nat) (v : ℚ) : List ℚ :=
  xs.set i (getQ xs i + v)

/-- Modelled from the spec: the `VectorBuilder` cache of `Γ(nu[i]/2)`, one
entry per element of `nu`, populated only when `nu` is differentiable
(spec §4.4). -/
def gammaVecOf (e : Ext) (nuDiff : Bool) (nu : Arg) : List ℚ :=
  if nuDiff then (List.range nu.length).map fun i => e.tgamma (0.5 * (nu.view i).toQ)
  else []

/-- Modelled from the spec: the `VectorBuilder` cache of `ψ(nu[i]/2)`
(spec §4.4). -/
def digammaVecOf (e : Ext) (nuDiff : Bool) (nu : Arg) : List ℚ :=
  if nuDiff then (List.range nu.length).map fun i => e.digamma (0.5 * (nu.view i).toQ)
  else []

/-- One iteration of the main accumulation loop (source lines 95–121):
skip the position when `y(n) == +∞`; otherwise fold
`Pn = gamma_q(0.5*nu, 0.5*y_inv)` into the running product and accumulate
the per-position gradient contributions into the underlying-element slots
the position maps to. -/
def step (e : Ext) (yDiff nuDiff : Bool) (y nu : Arg)
    (gammaVec digammaVec : List ℚ) (s : LoopState) (n : Nat) : LoopState :=
  if y.view n = .inf then s
  else
    let y_dbl := (y.view n).toQ
    let y_inv_dbl := 1 / y_dbl
    let nu_dbl := (nu.view n).toQ
    let Pn := e.gamma_q (0.5 * nu_dbl) (0.5 * y_inv_dbl)
    { P := s.P * Pn
      gy :=
        if yDiff then
          addAt s.gy (y.slot n)
            (0.5 * y_inv_dbl * y_inv_dbl * e.exp (-0.5 * y_inv_dbl)
              * e.pow (0.5 * y_inv_dbl) (0.5 * nu_dbl - 1)
              / e.tgamma (0.5 * nu_dbl) / Pn)
        else s.gy
      gnu :=
        if nuDiff then
          addAt s.gnu (nu.slot n)
            (0.5
              * e.grad_reg_inc_gamma (0.5 * nu_dbl) (0.5 * y_inv_dbl)
                  (getQ gammaVec (nu.slot n)) (getQ digammaVec (nu.slot n))
              / Pn)
        else s.gnu }

/-- Shallow embedding of `inv_chi_square_cdf`.  The control flow follows
the source: the empty-size short-circuit (line 51), the four validation
checks in source order (lines 61–65), the zero-variate scan over `y`'s own
elements (lines 75–77), precomputation of the `Γ`/`ψ` caches (lines
87–93), the accumulation loop over the broadcast length `N` (lines
95–121), and the final chain-rule pass multiplying every gradient slot by
the total product (lines 123–130).  Gradient-buffer bookkeeping
(zero-initialised, one slot per underlying element, absent for constant
arguments) is modelled from the spec, `operands_and_partials` being
external to the source file. -/
def inv_chi_square_cdf (e : Ext) (yDiff nuDiff : Bool) (y nu : Arg) :
    Except Err CdfResult :=
  if size_zero y nu then .ok ⟨1, none, none⟩
  else if !(nu.all Val.posFinite) then .error .domainError
  else if !(y.all Val.notNaN) then .error .domainError
  else if !(y.all Val.nonneg) then .error .domainError
  else if !(consistentSizes y nu) then .error .invalidArgumentError
  else if (List.range y.length).any (fun i => (y.view i).isZero) then
    .ok ⟨0,
      if yDiff then some (List.replicate y.length 0) else none,
      if nuDiff then some (List.replicate nu.length 0) else none⟩
  else
    let N := max y.length nu.length
    let st := (List.range N).foldl
      (step e yDiff nuDiff y nu (gammaVecOf e nuDiff nu) (digammaVecOf e nuDiff nu))
      ⟨1, List.replicate y.length 0, List.replicate nu.length 0⟩
    .ok ⟨st.P,
      if yDiff then some (st.gy.map fun g => g * st.P) else none,
      if nuDiff then some (st.gnu.map fun g => g * st.P) else none⟩

/-- The per-position probability factor `Pn` of the loop. -/
def PnAt (e : Ext) (y nu : Arg) (n : Nat) : ℚ :=
  e.gamma_q (0.5 * (nu.view n).toQ) (0.5 * (1 / (y.view n).toQ))

/-- The per-position y-gradient contribution of the loop. -/
def termYAt (e : Ext) (y nu : Arg) (n : Nat) : ℚ :=
  0.5 * (1 / (y.view n).toQ) * (1 / (y.view n).toQ)
    * e.exp (-0.5 * (1 / (y.view n).toQ))
    * e.pow (0.5 * (1 / (y.view n).toQ)) (0.5 * (nu.view n).toQ - 1)
    / e.tgamma (0.5 * (nu.view n).toQ) / PnAt e y nu n

/-- The per-position nu-gradient contribution of the loop, reading the
`Γ`/`ψ` caches at the underlying element of `nu`. -/
def termNuAt (e : Ext) (y nu : Arg) (gv dv : List ℚ) (n : Nat) : ℚ :=
  0.5 * e.grad_reg_inc_gamma (0.5 * (nu.view n).toQ) (0.5 * (1 / (y.view n).toQ))
      (getQ gv (nu.slot n)) (getQ dv (nu.slot n)) / PnAt e y nu n

/-- A concrete instantiation of the external collaborators, used to
evaluate the theorems at explicit inputs. -/
def extEx : Ext where
  gamma_q := fun a x => a + x
  grad_reg_inc_gamma := fun a x g d => a + x + g + d
  tgamma := fun a => a + 1
  digamma := fun a => a + 2
  exp := fun a => a + 3
  pow := fun a x => a + x + 4

/-! Basic facts about slot reading and accumulation. -/

lemma getQ_nil (k : Nat) : getQ [] k = 0 := by
  cases k <;> rfl

lemma getQ_cons_succ (a : ℚ) (xs : List ℚ) (k : Nat) :
    getQ (a :: xs) (k + 1) = getQ xs k := rfl

lemma addAt_length (xs : List ℚ) (i : Nat) (v : ℚ) :
    (addAt xs i v).length = xs.length := by
  simp [addAt]

lemma addAt_cons_succ (a : ℚ) (xs : List ℚ) (i : Nat) (v : ℚ) :
    addAt (a :: xs) (i + 1) v = a :: addAt xs i v := by
  simp [addAt, getQ]

lemma getQ_addAt (xs : List ℚ) (i k : Nat) (v : ℚ) (hk : k < xs.length) :
    getQ (addAt xs i v) k = getQ xs k + if i = k then v else 0 := by
  induction xs generalizing i k with
  | nil => simp at hk
  | cons a xs ih =>
    cases i with
    | zero =>
      cases k with
      | zero => simp [addAt, getQ]
      | succ k => simp [addAt, getQ]
    | succ i =>
      rw [addAt_cons_succ]
      cases k with
      | zero => simp [getQ]
      | succ k =>
        rw [getQ_cons_succ, getQ_cons_succ, ih i k (by simpa using hk)]
        simp

lemma getQ_map_mul (xs : List ℚ) (c : ℚ) (k : Nat) :
    getQ (xs.map fun g => g * c) k = getQ xs k * c := by
  induction xs generalizing k with
  | nil => simp [getQ_nil]
  | cons a xs ih =>
    cases k with
    | zero => rfl
    | succ k => simpa [getQ_cons_succ] using ih k

lemma getQ_replicate (n k : Nat) : getQ (List.replicate n (0 : ℚ)) k = 0 := by
  induction n generalizing k with
  | zero => simp [getQ_nil]
  | succ n ih =>
    cases k with
    | zero => rfl
    | succ k => simpa [List.replicate_succ, getQ_cons_succ] using ih k

lemma eq_singleton_getQ (xs : List ℚ) (h : xs.length = 1) : xs = [getQ xs 0] := by
  cases xs with
  | nil => simp at h
  | cons a t =>
    cases t with
    | nil => rfl
    | cons b t => simp at h

/-! Broadcast-view facts. -/

lemma view_eq_elem (a : Arg) (i : Nat) (hi : i < a.length) : a.view i = a.elem i := by
  cases a with
  | scalar v => rfl
  | vec vs =>
    simp only [Arg.view, Arg.slot, Arg.length] at hi ⊢
    split
    · next h =>
      have hzero : i = 0 := by omega
      simp [Arg.elem, hzero]
    · rfl

lemma slot_self (y nu : Arg) (hlen : y.length = max y.length nu.length)
    (m : Nat) (hm : m < max y.length nu.length) : y.slot m = m := by
  unfold Arg.slot
  split
  · next h =>
    generalize hN : max y.length nu.length = N at hlen hm
    omega
  · rfl

lemma isZero_iff (v : Val) : v.isZero = true ↔ v = .fin 0 := by
  cases v <;> simp [Val.isZero]

/-! Characterisation of one loop iteration. -/

lemma step_of_inf (e : Ext) (yD nD : Bool) (y nu : Arg) (gv dv : List ℚ)
    (s : LoopState) (n : Nat) (h : y.view n = .inf) :
    step e yD nD y nu gv dv s n = s := by
  simp [step, h]

lemma step_of_ne (e : Ext) (yD nD : Bool) (y nu : Arg) (gv dv : List ℚ)
    (s : LoopState) (n : Nat) (h : ¬ y.view n = .inf) :
    step e yD nD y nu gv dv s n =
      { P := s.P * PnAt e y nu n
        gy := if yD then addAt s.gy (y.slot n) (termYAt e y nu n) else s.gy
        gnu := if nD then addAt s.gnu (nu.slot n) (termNuAt e y nu gv dv n) else s.gnu } := by
  simp [step, h, PnAt, termYAt, termNuAt]

lemma step_gy_length (e : Ext) (yD nD : Bool) (y nu : Arg) (gv dv : List ℚ)
    (s : LoopState) (n : Nat) :
    ((step e yD nD y nu gv dv s n).gy).length = s.gy.length := by
  by_cases h : y.view n = .inf
  · rw [step_of_inf e yD nD y nu gv dv s n h]
  · rw [step_of_ne e yD nD y nu gv dv s n h]
    cases yD <;> simp [addAt_length]

lemma step_gnu_length (e : Ext) (yD nD : Bool) (y nu : Arg) (gv dv : List ℚ)
    (s : LoopState) (n : Nat) :
    ((step e yD nD y nu gv dv s n).gnu).length = s.gnu.length := by
  by_cases h : y.view n = .inf
  · rw [step_of_inf e yD nD y nu gv dv s n h]
  · rw [step_of_ne e yD nD y nu gv dv s n h]
    cases nD <;> simp [addAt_length]

/-! Characterisation of the whole loop, one component at a time. -/

lemma foldl_step_P (e : Ext) (yD nD : Bool) (y nu : Arg) (gv dv : List ℚ)
    (l : List Nat) (s : LoopState) :
    ((l.foldl (step e yD nD y nu gv dv) s).P)
      = s.P * (l.map fun n => if y.view n = .inf then 1 else PnAt e y nu n).prod := by
  induction l generalizing s with
  | nil => simp
  | cons n l ih =>
    rw [List.foldl_cons, ih]
    by_cases h : y.view n = .inf
    · rw [step_of_inf e yD nD y nu gv dv s n h]
      simp [h]
    · rw [step_of_ne e yD nD y nu gv dv s n h]
      simp [h, mul_assoc]

lemma foldl_step_gy (e : Ext) (yD nD : Bool) (y nu : Arg) (gv dv : List ℚ)
    (l : List Nat) (s : LoopState) (k : Nat) (hk : k < s.gy.length) :
    getQ ((l.foldl (step e yD nD y nu gv dv) s).gy) k
      = getQ s.gy k
        + (l.map fun n =>
            if yD = true ∧ ¬ y.view n = .inf ∧ y.slot n = k
            then termYAt e y nu n else 0).sum := by
  induction l generalizing s with
  | nil => simp
  | cons n l ih =>
    rw [List.foldl_cons]
    have hk' : k < ((step e yD nD y nu gv dv s n).gy).length := by
      rw [step_gy_length]; exact hk
    rw [ih _ hk']
    by_cases h : y.view n = .inf
    · rw [step_of_inf e yD nD y nu gv dv s n h]
      simp [h]
    · rw [step_of_ne e yD nD y nu gv dv s n h]
      cases yD with
      | false => simp [h]
      | true =>
        have hadd := getQ_addAt s.gy (y.slot n) k (termYAt e y nu n) hk
        by_cases hs : y.slot n = k
        · rw [hs] at hadd
          simp [hadd, h, hs]
          ring
        · simp [hadd, h, hs]

lemma foldl_step_gnu (e : Ext) (yD nD : Bool) (y nu : Arg) (gv dv : List ℚ)
    (l : List Nat) (s : LoopState) (k : Nat) (hk : k < s.gnu.length) :
    getQ ((l.foldl (step e yD nD y nu gv dv) s).gnu) k
      = getQ s.gnu k
        + (l.map fun n =>
            if nD = true ∧ ¬ y.view n = .inf ∧ nu.slot n = k
            then termNuAt e y nu gv dv n else 0).sum := by
  induction l generalizing s with
  | nil => simp
  | cons n l ih =>
    rw [List.foldl_cons]
    have hk' : k < ((step e yD nD y nu gv dv s n).gnu).length := by
      rw [step_gnu_length]; exact hk
    rw [ih _ hk']
    by_cases h : y.view n = .inf
    · rw [step_of_inf e yD nD y nu gv dv s n h]
      simp [h]
    · rw [step_of_ne e yD nD y nu gv dv s n h]
      cases nD with
      | false => simp [h]
      | true =>
        have hadd := getQ_addAt s.gnu (nu.slot n) k (termNuAt e y nu gv dv n) hk
        by_cases hs : nu.slot n = k
        · rw [hs] at hadd
          simp [hadd, h, hs]
          ring
        · simp [hadd, h, hs]

lemma foldl_const {α β : Type _} (f : α → β → α) (a : α) (h : ∀ b, f a b = a) :
    ∀ l : List β, l.foldl f a = a
  | [] => rfl
  | x :: l => by rw [List.foldl_cons, h x]; exact foldl_const f a h l

lemma prod_filter_map (l : List Nat) (p : Nat → Bool) (f : Nat → ℚ) :
    ((l.filter p).map f).prod = (l.map fun n => if p n then f n else 1).prod := by
  induction l with
  | nil => rfl
  | cons n l ih =>
    by_cases h : p n
    · simp [List.filter_cons, h, ih]
    · simp [List.filter_cons, h, ih]

lemma sum_single (N k : Nat) (hk : k < N) (f : Nat → ℚ) :
    ((List.range N).map fun n => if n = k then f n else 0).sum = f k := by
  induction N with
  | zero => omega
  | succ m ih =>
    rw [List.range_succ, List.map_append, List.sum_append]
    by_cases h : k = m
    · subst h
      have h0 : ((List.range k).map fun n => if n = k then f n else 0).sum = 0 := by
        apply List.sum_eq_zero
        intro x hx
        rcases List.mem_map.mp hx with ⟨n, hn, rfl⟩
        have hlt : n < k := List.mem_range.mp hn
        simp [Nat.ne_of_lt hlt]
      simp [h0]
    · have hk' : k < m := by omega
      rw [ih hk']
      have hm : ¬ (m = k) := fun hmk => h hmk.symm
      simp [hm]

lemma div_two_eq (a : ℚ) : a / 2 = 0.5 * a := by
  rw [show (0.5 : ℚ) = 1 / 2 by norm_num]
  ring

/-! Control-flow characterisations of the main function. -/

lemma cdf_size_zero (e : Ext) (yD nD : Bool) (y nu : Arg)
    (h0 : size_zero y nu = true) :
    inv_chi_square_cdf e yD nD y nu = .ok ⟨1, none, none⟩ := by
  simp [inv_chi_square_cdf, h0]

lemma cdf_domain_error (e : Ext) (yD nD : Bool) (y nu : Arg)
    (h0 : size_zero y nu = false)
    (hbad : nu.all Val.posFinite = false ∨ y.all Val.notNaN = false ∨
      y.all Val.nonneg = false) :
    inv_chi_square_cdf e yD nD y nu = .error .domainError := by
  cases hA : nu.all Val.posFinite with
  | false => simp [inv_chi_square_cdf, h0, hA]
  | true =>
    cases hB : y.all Val.notNaN with
    | false => simp [inv_chi_square_cdf, h0, hA, hB]
    | true =>
      cases hC : y.all Val.nonneg with
      | false => simp [inv_chi_square_cdf, h0, hA, hB, hC]
      | true =>
        rcases hbad with h | h | h
        · rw [hA] at h; cases h
        · rw [hB] at h; cases h
        · rw [hC] at h; cases h

lemma cdf_valid (e : Ext) (yD nD : Bool) (y nu : Arg)
    (h0 : size_zero y nu = false)
    (h1 : nu.all Val.posFinite = true)
    (h2 : y.all Val.notNaN = true)
    (h3 : y.all Val.nonneg = true)
    (h4 : consistentSizes y nu = true)
    (h5 : (List.range y.length).any (fun i => (y.view i).isZero) = false) :
    inv_chi_square_cdf e yD nD y nu =
      (let st := (List.range (max y.length nu.length)).foldl
          (step e yD nD y nu (gammaVecOf e nD nu) (digammaVecOf e nD nu))
          ⟨1, List.replicate y.length 0, List.replicate nu.length 0⟩
       Except.ok ⟨st.P,
        if yD then some (st.gy.map fun g => g * st.P) else none,
        if nD then some (st.gnu.map fun g => g * st.P) else none⟩) := by
  simp only [inv_chi_square_cdf, h0, h1, h2, h3, h4, h5, Bool.not_true,
    Bool.false_eq_true, if_false]

lemma any_isZero_false (y : Arg) (h : ∀ i, i < y.length → y.elem i ≠ .fin 0) :
    (List.range y.length).any (fun i => (y.view i).isZero) = false := by
  rw [List.any_eq_false]
  intro i hi
  have hi' : i < y.length := List.mem_range.mp hi
  rw [view_eq_elem y i hi']
  intro hz
  exact h i hi' ((isZero_iff (y.elem i)).mp hz)

lemma foldl_step_gy_length (e : Ext) (yD nD : Bool) (y nu : Arg) (gv dv : List ℚ)
    (l : List Nat) (s : LoopState) :
    ((l.foldl (step e yD nD y nu gv dv) s).gy).length = s.gy.length := by
  induction l generalizing s with
  | nil => rfl
  | cons n l ih => rw [List.foldl_cons, ih, step_gy_length]

lemma foldl_step_gnu_length (e : Ext) (yD nD : Bool) (y nu : Arg) (gv dv : List ℚ)
    (l : List Nat) (s : LoopState) :
    ((l.foldl (step e yD nD y nu gv dv) s).gnu).length = s.gnu.length := by
  induction l generalizing s with
  | nil => rfl
  | cons n l ih => rw [List.foldl_cons, ih, step_gnu_length]

lemma map_mul_of_length_one (xs : List ℚ) (h : xs.length = 1) (c : ℚ) :
    xs.map (fun g => g * c) = [getQ xs 0 * c] := by
  cases xs with
  | nil => simp at h
  | cons a t =>
    cases t with
    | nil => rfl
    | cons b t => simp at h

lemma consistentSizes_false_of (ys ns : List Val)
    (hne : ys.length ≠ ns.length) (hy1 : ys.length ≠ 1) (hn1 : ns.length ≠ 1) :
    consistentSizes (.vec ys) (.vec ns) = false := by
  simp only [consistentSizes, Arg.length, Bool.and_eq_false_iff,
    Bool.or_eq_false_iff, decide_eq_false_iff_not]
  rcases Nat.lt_or_ge ys.length ns.length with h | h
  · left
    rw [Nat.max_eq_right h.le]
    exact ⟨hne, hy1⟩
  · right
    rw [Nat.max_eq_left h]
    exact ⟨fun hc => hne hc.symm, hn1⟩

/-! The claims. -/

/-- Claim C1: for every pair of valid non-empty inputs (every `nu` element
positive and finite, every `y` element non-negative and non-NaN, lengths
broadcast-compatible, no `y` element equal to 0), the returned value equals
the product, over all broadcast positions `n` in `[0, N)` with `y(n)` not
equal to `+∞`, of `Q(nu(n)/2, (1/y(n))/2)`, where `Q` is the externally
supplied regularized upper incomplete gamma function and
`N = max(len y, len nu)`. -/
theorem C1_value_filtered_product (e : Ext) (yD nD : Bool) (y nu : Arg)
    (h0 : size_zero y nu = false)
    (h1 : nu.all Val.posFinite = true)
    (h2 : y.all Val.notNaN = true)
    (h3 : y.all Val.nonneg = true)
    (h4 : consistentSizes y nu = true)
    (h5 : ∀ i, i < y.length → y.elem i ≠ .fin 0) :
    ∃ r, inv_chi_square_cdf e yD nD y nu = .ok r ∧
      r.value = (((List.range (max y.length nu.length)).filter
            fun n => !(y.view n == Val.inf)).map
          fun n => e.gamma_q ((nu.view n).toQ / 2) (1 / (y.view n).toQ / 2)).prod := by
  rw [cdf_valid e yD nD y nu h0 h1 h2 h3 h4 (any_isZero_false y h5)]
  refine ⟨_, rfl, ?_⟩
  simp only [foldl_step_P, one_mul, prod_filter_map]
  congr 1
  apply List.map_congr_left
  intro n _
  by_cases h : y.view n = .inf
  · simp [h]
  · simp [h, beq_iff_eq, PnAt, div_two_eq]

/-- Witness for C1 at a concrete input: `y = [2, +∞]`, `nu = 3` (scalar),
both arguments differentiable, with concrete external functions. -/
theorem C1_witness :
    ∃ r, inv_chi_square_cdf extEx true true (.vec [.fin 2, .inf]) (.scalar (.fin 3)) = .ok r ∧
      r.value = (((List.range (max (Arg.vec [.fin 2, .inf]).length
              (Arg.scalar (.fin 3)).length)).filter
            fun n => !((Arg.vec [.fin 2, .inf]).view n == Val.inf)).map
          fun n => extEx.gamma_q (((Arg.scalar (.fin 3)).view n).toQ / 2)
            (1 / ((Arg.vec [.fin 2, .inf]).view n).toQ / 2)).prod :=
  C1_value_filtered_product extEx true true (.vec [.fin 2, .inf]) (.scalar (.fin 3))
    (by decide) (by decide) (by decide) (by decide) (by decide) (by decide)

/-- Claim C4: for every valid non-empty input in which some element of `y`
(indexed by `y`'s own length) equals exactly 0, the call returns the value
0.0, and every requested gradient slot is zero. -/
theorem C4_zero_variate_short_circuit (e : Ext) (yD nD : Bool) (y nu : Arg)
    (h0 : size_zero y nu = false)
    (h1 : nu.all Val.posFinite = true)
    (h2 : y.all Val.notNaN = true)
    (h3 : y.all Val.nonneg = true)
    (h4 : consistentSizes y nu = true)
    (hz : ∃ i, i < y.length ∧ y.elem i = .fin 0) :
    inv_chi_square_cdf e yD nD y nu =
      .ok ⟨0,
        if yD then some (List.replicate y.length 0) else none,
        if nD then some (List.replicate nu.length 0) else none⟩ := by
  have hany : (List.range y.length).any (fun i => (y.view i).isZero) = true := by
    rcases hz with ⟨i, hi, hei⟩
    rw [List.any_eq_true]
    refine ⟨i, List.mem_range.mpr hi, ?_⟩
    rw [view_eq_elem y i hi, hei]
    rfl
  simp [inv_chi_square_cdf, h0, h1, h2, h3, h4, hany]

/-- Witness for C4 at a concrete input: `y = [0, 1]`, `nu = 5` (scalar),
both arguments differentiable. -/
theorem C4_witness :
    inv_chi_square_cdf extEx true true (.vec [.fin 0, .fin 1]) (.scalar (.fin 5)) =
      .ok ⟨0,
        if true then some (List.replicate (Arg.vec [Val.fin 0, Val.fin 1]).length 0) else none,
        if true then some (List.replicate (Arg.scalar (Val.fin 5)).length 0) else none⟩ :=
  C4_zero_variate_short_circuit extEx true true (.vec [.fin 0, .fin 1]) (.scalar (.fin 5))
    (by decide) (by decide) (by decide) (by decide) (by decide) ⟨0, by decide, rfl⟩

/-- Claim C6: for every input in which `y` or `nu` is an empty sequence,
the call returns exactly the value 1.0 with no gradient slots. -/
theorem C6_empty_returns_one (e : Ext) (yD nD : Bool) (y nu : Arg)
    (h : y.length = 0 ∨ nu.length = 0) :
    inv_chi_square_cdf e yD nD y nu = .ok ⟨1, none, none⟩ := by
  apply cdf_size_zero
  rcases h with h | h <;> simp [size_zero, h]

/-- Witness for C6 at a concrete input: `y = []`, `nu = 3` (scalar). -/
theorem C6_witness :
    inv_chi_square_cdf extEx true true (.vec []) (.scalar (.fin 3)) = .ok ⟨1, none, none⟩ :=
  C6_empty_returns_one extEx true true (.vec []) (.scalar (.fin 3)) (Or.inl rfl)

/-- Claim C7 counterexample: the claim demands an InvalidArgumentError for
`y = [NaN, 1]`, `nu = [1, 1, 1]` (both sequences, lengths 2 and 3, neither
of length 1), but the code raises DomainError, the NaN check firing before
the size check; and for `y = []`, `nu = -1` the claim demands a DomainError
(`nu` non-positive), but the code returns 1.0 and raises nothing, the
empty-size short-circuit preceding all validation. -/
theorem C7_counterexample :
    inv_chi_square_cdf extEx true true (.vec [.nan, .fin 1])
        (.vec [.fin 1, .fin 1, .fin 1]) = .error .domainError ∧
    inv_chi_square_cdf extEx true true (.vec []) (.scalar (.fin (-1)))
        = .ok ⟨1, none, none⟩ ∧
    Err.domainError ≠ Err.invalidArgumentError :=
  ⟨rfl, rfl, by decide⟩

/-- Claim C7 (amended): for every NON-EMPTY input, a DomainError is raised
(before any computation, no partial result) whenever `nu` contains a
non-positive or non-finite element, or `y` contains a NaN or negative
element; and, when all element domain checks pass, an InvalidArgumentError
is raised whenever `y` and `nu` are both sequences of different lengths
with neither of length 1 (the domain checks take precedence over the size
check, and empty inputs skip validation entirely). -/
theorem C7_amended_validation_order (e : Ext) (yD nD : Bool) (y nu : Arg)
    (h0 : size_zero y nu = false) :
    ((nu.all Val.posFinite = false ∨ y.all Val.notNaN = false ∨
        y.all Val.nonneg = false) →
      inv_chi_square_cdf e yD nD y nu = .error .domainError) ∧
    (nu.all Val.posFinite = true → y.all Val.notNaN = true →
      y.all Val.nonneg = true →
      ∀ ys ns, y = .vec ys → nu = .vec ns → ys.length ≠ ns.length →
        ys.length ≠ 1 → ns.length ≠ 1 →
        inv_chi_square_cdf e yD nD y nu = .error .invalidArgumentError) := by
  refine ⟨fun hbad => cdf_domain_error e yD nD y nu h0 hbad, ?_⟩
  intro hA hB hC ys ns hy hn hne hy1 hn1
  subst hy
  subst hn
  have h4 := consistentSizes_false_of ys ns hne hy1 hn1
  simp [inv_chi_square_cdf, h0, hA, hB, hC, h4]

/-- Witness for the amended C7 at a concrete non-empty input:
`y = [1, 1]`, `nu = [1, 1, 1]`. -/
theorem C7_amended_witness :
    (((Arg.vec [Val.fin 1, Val.fin 1, Val.fin 1]).all Val.posFinite = false ∨
        (Arg.vec [Val.fin 1, Val.fin 1]).all Val.notNaN = false ∨
        (Arg.vec [Val.fin 1, Val.fin 1]).all Val.nonneg = false) →
      inv_chi_square_cdf extEx true true (.vec [.fin 1, .fin 1])
        (.vec [.fin 1, .fin 1, .fin 1]) = .error .domainError) ∧
    ((Arg.vec [Val.fin 1, Val.fin 1, Val.fin 1]).all Val.posFinite = true →
      (Arg.vec [Val.fin 1, Val.fin 1]).all Val.notNaN = true →
      (Arg.vec [Val.fin 1, Val.fin 1]).all Val.nonneg = true →
      ∀ ys ns, Arg.vec [Val.fin 1, Val.fin 1] = .vec ys →
        Arg.vec [Val.fin 1, Val.fin 1, Val.fin 1] = .vec ns →
        ys.length ≠ ns.length → ys.length ≠ 1 → ns.length ≠ 1 →
        inv_chi_square_cdf extEx true true (.vec [.fin 1, .fin 1])
          (.vec [.fin 1, .fin 1, .fin 1]) = .error .invalidArgumentError) :=
  C7_amended_validation_order extEx true true (.vec [.fin 1, .fin 1])
    (.vec [.fin 1, .fin 1, .fin 1]) (by decide)

/-- Claim C9: if either argument has length 0, the function returns 1.0
without performing any validation: no error is raised even when the other
argument contains non-positive, non-finite, NaN or negative elements,
because the empty-input short-circuit precedes all checks. -/
theorem C9_empty_skips_validation (e : Ext) (yD nD : Bool) (y nu : Arg)
    (hempty : y.length = 0 ∨ nu.length = 0)
    (hbad : nu.all Val.posFinite = false ∨ y.all Val.notNaN = false ∨
      y.all Val.nonneg = false ∨ consistentSizes y nu = false) :
    inv_chi_square_cdf e yD nD y nu = .ok ⟨1, none, none⟩ ∧
    ∀ er : Err, inv_chi_square_cdf e yD nD y nu ≠ .error er := by
  have hok : inv_chi_square_cdf e yD nD y nu = .ok ⟨1, none, none⟩ := by
    apply cdf_size_zero
    rcases hempty with h | h <;> simp [size_zero, h]
  refine ⟨hok, fun er hco => ?_⟩
  rw [hok] at hco
  exact Except.noConfusion hco

/-- Witness for C9 at a concrete input: `y = []`, `nu = -1` (invalid). -/
theorem C9_witness :
    inv_chi_square_cdf extEx true true (.vec []) (.scalar (.fin (-2))) = .ok ⟨1, none, none⟩ ∧
    ∀ er : Err, inv_chi_square_cdf extEx true true (.vec []) (.scalar (.fin (-2))) ≠ .error er :=
  C9_empty_skips_validation extEx true true (.vec []) (.scalar (.fin (-2)))
    (Or.inl rfl) (Or.inl (by decide))

/-- Claim C10: for every non-empty input, validation precedes the
zero-variate short-circuit: if `nu` contains a non-positive or non-finite
element, or `y` contains a NaN or negative element, a DomainError is
raised even when `y` also contains an element equal to 0. -/
theorem C10_validation_precedes_zero_check (e : Ext) (yD nD : Bool) (y nu : Arg)
    (h0 : size_zero y nu = false)
    (hz : ∃ i, i < y.length ∧ y.elem i = .fin 0)
    (hbad : nu.all Val.posFinite = false ∨ y.all Val.notNaN = false ∨
      y.all Val.nonneg = false) :
    inv_chi_square_cdf e yD nD y nu = .error .domainError :=
  cdf_domain_error e yD nD y nu h0 hbad

/-- Witness for C10 at the claim's own example `cdf(0, -1)`: the call
raises DomainError rather than returning 0.0. -/
theorem C10_witness :
    inv_chi_square_cdf extEx true true (.scalar (.fin 0)) (.scalar (.fin (-1)))
      = .error .domainError :=
  C10_validation_precedes_zero_check extEx true true (.scalar (.fin 0)) (.scalar (.fin (-1)))
    (by decide) ⟨0, by decide, rfl⟩ (Or.inl (by decide))

/-- Claim C2: for every valid non-empty input with `y` differentiable (and
one y-gradient slot per broadcast position, i.e. `len y = N`) and no zero
`y` element, after the call each y-gradient slot for position `n` with
`y(n) ≠ +∞` equals the total product `P` times the accumulated quantity
`0.5 · y_inv² · exp(-0.5·y_inv) · (0.5·y_inv)^(nu(n)/2 − 1) / Γ(nu(n)/2) / Pn`
with `y_inv = 1/y(n)` and `Pn = Q(nu(n)/2, y_inv/2)`: the final post-loop
pass multiplies every accumulated slot by the complete product `P`. -/
theorem C2_y_gradient_slots (e : Ext) (nD : Bool) (y nu : Arg)
    (h0 : size_zero y nu = false)
    (h1 : nu.all Val.posFinite = true)
    (h2 : y.all Val.notNaN = true)
    (h3 : y.all Val.nonneg = true)
    (h4 : consistentSizes y nu = true)
    (h5 : ∀ i, i < y.length → y.elem i ≠ .fin 0)
    (hlen : y.length = max y.length nu.length) :
    ∃ r g, inv_chi_square_cdf e true nD y nu = .ok r ∧ r.grad_y = some g ∧
      ∀ n, n < max y.length nu.length → y.view n ≠ .inf →
        getQ g n = r.value *
          (0.5 * (1 / (y.view n).toQ) * (1 / (y.view n).toQ)
            * e.exp (-0.5 * (1 / (y.view n).toQ))
            * e.pow (0.5 * (1 / (y.view n).toQ)) ((nu.view n).toQ / 2 - 1)
            / e.tgamma ((nu.view n).toQ / 2)
            / e.gamma_q ((nu.view n).toQ / 2) (1 / (y.view n).toQ / 2)) := by
  rw [cdf_valid e true nD y nu h0 h1 h2 h3 h4 (any_isZero_false y h5)]
  refine ⟨_, _, rfl, rfl, ?_⟩
  intro n hn hninf
  have hn' : n < y.length := by rw [hlen]; exact hn
  rw [getQ_map_mul]
  rw [foldl_step_gy e true nD y nu (gammaVecOf e nD nu) (digammaVecOf e nD nu)
    (List.range (max y.length nu.length))
    ⟨1, List.replicate y.length 0, List.replicate nu.length 0⟩ n (by simpa using hn')]
  have hmapeq : ∀ m ∈ List.range (max y.length nu.length),
      (if true = true ∧ ¬ y.view m = .inf ∧ y.slot m = n
        then termYAt e y nu m else 0)
        = (if m = n then termYAt e y nu m else 0) := by
    intro m hm
    have hm' : m < max y.length nu.length := List.mem_range.mp hm
    have hslot : y.slot m = m := slot_self y nu hlen m hm'
    by_cases hmn : m = n
    · subst hmn
      simp [hslot, hninf]
    · simp [hslot, hmn]
  rw [List.map_congr_left hmapeq, sum_single (max y.length nu.length) n hn (termYAt e y nu)]
  simp only [getQ_replicate, zero_add, termYAt, PnAt, div_two_eq]
  ring

/-- Witness for C2 at a concrete input: `y = [2, 4]`, `nu = 3` (scalar). -/
theorem C2_witness :
    ∃ r g, inv_chi_square_cdf extEx true true (.vec [.fin 2, .fin 4]) (.scalar (.fin 3)) = .ok r ∧
      r.grad_y = some g ∧
      ∀ n, n < max (Arg.vec [Val.fin 2, Val.fin 4]).length (Arg.scalar (Val.fin 3)).length →
        (Arg.vec [Val.fin 2, Val.fin 4]).view n ≠ .inf →
        getQ g n = r.value *
          (0.5 * (1 / ((Arg.vec [Val.fin 2, Val.fin 4]).view n).toQ)
            * (1 / ((Arg.vec [Val.fin 2, Val.fin 4]).view n).toQ)
            * extEx.exp (-0.5 * (1 / ((Arg.vec [Val.fin 2, Val.fin 4]).view n).toQ))
            * extEx.pow (0.5 * (1 / ((Arg.vec [Val.fin 2, Val.fin 4]).view n).toQ))
                (((Arg.scalar (Val.fin 3)).view n).toQ / 2 - 1)
            / extEx.tgamma (((Arg.scalar (Val.fin 3)).view n).toQ / 2)
            / extEx.gamma_q (((Arg.scalar (Val.fin 3)).view n).toQ / 2)
                (1 / ((Arg.vec [Val.fin 2, Val.fin 4]).view n).toQ / 2)) :=
  C2_y_gradient_slots extEx true (.vec [.fin 2, .fin 4]) (.scalar (.fin 3))
    (by decide) (by decide) (by decide) (by decide) (by decide) (by decide) (by decide)

/-- Claim C3: when `nu` is a differentiable scalar and `y` is a sequence of
length 2 (valid, no zeros, no infinities), the single nu-gradient slot
equals the sum over both broadcast positions of
`0.5 · grad_Q(nu/2, (1/y(n))/2, Γ(nu/2), ψ(nu/2)) / Pn`, multiplied once at
the end by the total product `P`: contributions from broadcast positions
sharing one underlying `nu` element are summed into the same slot. -/
theorem C3_nu_slot_accumulates (e : Ext) (yD : Bool) (nu0 y1 y2 : ℚ)
    (hnu : 0 < nu0) (hy1 : 0 < y1) (hy2 : 0 < y2) :
    ∃ r g, inv_chi_square_cdf e yD true (.vec [.fin y1, .fin y2]) (.scalar (.fin nu0)) = .ok r ∧
      r.grad_nu = some g ∧
      g = [(0.5 * e.grad_reg_inc_gamma (nu0 / 2) (1 / y1 / 2)
              (e.tgamma (nu0 / 2)) (e.digamma (nu0 / 2))
            / e.gamma_q (nu0 / 2) (1 / y1 / 2)
          + 0.5 * e.grad_reg_inc_gamma (nu0 / 2) (1 / y2 / 2)
              (e.tgamma (nu0 / 2)) (e.digamma (nu0 / 2))
            / e.gamma_q (nu0 / 2) (1 / y2 / 2)) * r.value] := by
  have h1 : (Arg.scalar (Val.fin nu0)).all Val.posFinite = true := by
    simp [Arg.all, Val.posFinite, hnu]
  have h3 : (Arg.vec [Val.fin y1, Val.fin y2]).all Val.nonneg = true := by
    simp [Arg.all, Val.nonneg, hy1.le, hy2.le]
  have h5 : (List.range (Arg.vec [Val.fin y1, Val.fin y2]).length).any
      (fun i => ((Arg.vec [Val.fin y1, Val.fin y2]).view i).isZero) = false := by
    simp [Arg.length, Arg.view, Arg.slot, Arg.elem, Val.isZero, List.range_succ,
      hy1.ne', hy2.ne']
  rw [cdf_valid e yD true (.vec [.fin y1, .fin y2]) (.scalar (.fin nu0)) rfl h1 rfl h3 rfl h5]
  refine ⟨_, _, rfl, rfl, ?_⟩
  rw [map_mul_of_length_one _ (by rw [foldl_step_gnu_length]; rfl)]
  rw [foldl_step_gnu e yD true (.vec [.fin y1, .fin y2]) (.scalar (.fin nu0))
    (gammaVecOf e true (.scalar (.fin nu0))) (digammaVecOf e true (.scalar (.fin nu0)))
    (List.range (max (Arg.vec [Val.fin y1, Val.fin y2]).length
      (Arg.scalar (Val.fin nu0)).length))
    ⟨1, List.replicate (Arg.vec [Val.fin y1, Val.fin y2]).length 0,
      List.replicate (Arg.scalar (Val.fin nu0)).length 0⟩ 0 (by simp [Arg.length])]
  have hr2 : List.range (max (Arg.vec [Val.fin y1, Val.fin y2]).length
      (Arg.scalar (Val.fin nu0)).length) = [0, 1] := rfl
  rw [hr2]
  simp [termNuAt, PnAt, gammaVecOf, digammaVecOf, Arg.view, Arg.slot, Arg.elem,
    Arg.length, Val.toQ, getQ, div_two_eq]

/-- Witness for C3 at a concrete input: `y = [1, 2]`, `nu = 3` (scalar). -/
theorem C3_witness :
    ∃ r g, inv_chi_square_cdf extEx true true (.vec [.fin 1, .fin 2]) (.scalar (.fin 3)) = .ok r ∧
      r.grad_nu = some g ∧
      g = [(0.5 * extEx.grad_reg_inc_gamma ((3:ℚ) / 2) (1 / 1 / 2)
              (extEx.tgamma ((3:ℚ) / 2)) (extEx.digamma ((3:ℚ) / 2))
            / extEx.gamma_q ((3:ℚ) / 2) (1 / 1 / 2)
          + 0.5 * extEx.grad_reg_inc_gamma ((3:ℚ) / 2) (1 / 2 / 2)
              (extEx.tgamma ((3:ℚ) / 2)) (extEx.digamma ((3:ℚ) / 2))
            / extEx.gamma_q ((3:ℚ) / 2) (1 / 2 / 2)) * r.value] :=
  C3_nu_slot_accumulates extEx true 3 1 2 (by norm_num) (by norm_num) (by norm_num)

/-- Claim C5: each broadcast position where `y(n)` is `+∞` leaves the loop
state unchanged (contributing a factor 1 to the product and nothing to any
gradient accumulator); in particular, for scalar `y = +∞` and any valid
non-empty `nu` the returned value is exactly 1 and the requested gradient
slots are all zero. -/
theorem C5_infinity_contributes_nothing (e : Ext) (yD nD : Bool) (nu : Arg)
    (gv dv : List ℚ)
    (h1 : nu.all Val.posFinite = true) (hne : nu.length ≠ 0) :
    (∀ (y : Arg) (s : LoopState) (n : Nat), y.view n = .inf →
        step e yD nD y nu gv dv s n = s) ∧
    inv_chi_square_cdf e yD nD (.scalar .inf) nu =
      .ok ⟨1,
        if yD then some [0] else none,
        if nD then some (List.replicate nu.length 0) else none⟩ := by
  refine ⟨fun y s n h => step_of_inf e yD nD y nu gv dv s n h, ?_⟩
  have e1 : (Arg.scalar Val.inf).length = 1 := rfl
  have h0 : size_zero (.scalar .inf) nu = false := by
    simp [size_zero, e1, hne]
  have hmax : max 1 nu.length = nu.length := Nat.max_eq_right (by omega)
  have h4 : consistentSizes (.scalar .inf) nu = true := by
    simp [consistentSizes, e1, hmax]
  rw [cdf_valid e yD nD (.scalar .inf) nu h0 h1 rfl rfl h4 rfl]
  rw [foldl_const (step e yD nD (.scalar .inf) nu (gammaVecOf e nD nu) (digammaVecOf e nD nu))
    ⟨1, List.replicate (Arg.scalar Val.inf).length 0, List.replicate nu.length 0⟩
    (fun n => step_of_inf e yD nD (.scalar .inf) nu (gammaVecOf e nD nu)
      (digammaVecOf e nD nu) _ n rfl)
    (List.range (max (Arg.scalar Val.inf).length nu.length))]
  simp [List.map_replicate, Arg.length]

/-- Witness for C5 at a concrete input: `y = +∞` (scalar), `nu = 1`
(scalar), both differentiable. -/
theorem C5_witness :
    (∀ (y : Arg) (s : LoopState) (n : Nat), y.view n = .inf →
        step extEx true true y (.scalar (.fin 1)) [] [] s n = s) ∧
    inv_chi_square_cdf extEx true true (.scalar .inf) (.scalar (.fin 1)) =
      .ok ⟨1,
        if true then some [0] else none,
        if true then some (List.replicate (Arg.scalar (Val.fin 1)).length 0) else none⟩ :=
  C5_infinity_contributes_nothing extEx true true (.scalar (.fin 1)) [] []
    (by decide) (by decide)

/-- Claim C8 counterexample: with `Q := fun a x => a + x`, `y = [2, 1]` and
scalar `nu = 2`, the two-element call returns the single scalar 15/8 — the
product of the per-element CDFs 5/4 and 3/2 — which differs from both
element-wise values, so the value channel is not the element-wise vector
`[cdf(y1, nu), cdf(y2, nu)]`. -/
theorem C8_counterexample :
    inv_chi_square_cdf extEx false false (.vec [.fin 2, .fin 1]) (.scalar (.fin 2))
        = .ok ⟨15 / 8, none, none⟩ ∧
    inv_chi_square_cdf extEx false false (.scalar (.fin 2)) (.scalar (.fin 2))
        = .ok ⟨5 / 4, none, none⟩ ∧
    inv_chi_square_cdf extEx false false (.scalar (.fin 1)) (.scalar (.fin 2))
        = .ok ⟨3 / 2, none, none⟩ ∧
    (15 / 8 : ℚ) ≠ 5 / 4 ∧ (15 / 8 : ℚ) ≠ 3 / 2 := by
  refine ⟨?_, ?_, ?_, by norm_num, by norm_num⟩
  · rw [cdf_valid extEx false false (.vec [.fin 2, .fin 1]) (.scalar (.fin 2))
      rfl (by decide) rfl (by decide) rfl (by decide)]
    have hr : List.range (max (Arg.vec [Val.fin 2, Val.fin 1]).length
        (Arg.scalar (Val.fin 2)).length) = [0, 1] := rfl
    simp only [foldl_step_P, hr]
    norm_num [extEx, PnAt, Arg.view, Arg.slot, Arg.elem, Arg.length, Val.toQ]
    simp
  · rw [cdf_valid extEx false false (.scalar (.fin 2)) (.scalar (.fin 2))
      rfl (by decide) rfl (by decide) rfl (by decide)]
    have hr : List.range (max (Arg.scalar (Val.fin 2)).length
        (Arg.scalar (Val.fin 2)).length) = [0] := rfl
    simp only [foldl_step_P, hr]
    norm_num [extEx, PnAt, Arg.view, Arg.slot, Arg.elem, Arg.length, Val.toQ]
    simp
  · rw [cdf_valid extEx false false (.scalar (.fin 1)) (.scalar (.fin 2))
      rfl (by decide) rfl (by decide) rfl (by decide)]
    have hr : List.range (max (Arg.scalar (Val.fin 1)).length
        (Arg.scalar (Val.fin 2)).length) = [0] := rfl
    simp only [foldl_step_P, hr]
    norm_num [extEx, PnAt, Arg.view, Arg.slot, Arg.elem, Arg.length, Val.toQ]
    simp

/-- Claim C8 (amended): for every valid scalar `nu` and valid positive
finite scalars `y1`, `y2`, the value channel of `cdf([y1, y2], nu)` equals
the PRODUCT `cdf(y1, nu) * cdf(y2, nu)` of the element-wise scalar CDF
values (the kernel returns the product of per-element probabilities, not a
vector). -/
theorem C8_amended_value_is_product (e : Ext) (y1 y2 nu0 : ℚ)
    (hy1 : 0 < y1) (hy2 : 0 < y2) (hnu : 0 < nu0) :
    ∃ r r1 r2,
      inv_chi_square_cdf e false false (.vec [.fin y1, .fin y2]) (.scalar (.fin nu0)) = .ok r ∧
      inv_chi_square_cdf e false false (.scalar (.fin y1)) (.scalar (.fin nu0)) = .ok r1 ∧
      inv_chi_square_cdf e false false (.scalar (.fin y2)) (.scalar (.fin nu0)) = .ok r2 ∧
      r.value = r1.value * r2.value := by
  have h1 : (Arg.scalar (Val.fin nu0)).all Val.posFinite = true := by
    simp [Arg.all, Val.posFinite, hnu]
  have h3p : (Arg.vec [Val.fin y1, Val.fin y2]).all Val.nonneg = true := by
    simp [Arg.all, Val.nonneg, hy1.le, hy2.le]
  have h3a : (Arg.scalar (Val.fin y1)).all Val.nonneg = true := by
    simp [Arg.all, Val.nonneg, hy1.le]
  have h3b : (Arg.scalar (Val.fin y2)).all Val.nonneg = true := by
    simp [Arg.all, Val.nonneg, hy2.le]
  have h5p : (List.range (Arg.vec [Val.fin y1, Val.fin y2]).length).any
      (fun i => ((Arg.vec [Val.fin y1, Val.fin y2]).view i).isZero) = false := by
    simp [Arg.length, Arg.view, Arg.slot, Arg.elem, Val.isZero, List.range_succ,
      hy1.ne', hy2.ne']
  have h5a : (List.range (Arg.scalar (Val.fin y1)).length).any
      (fun i => ((Arg.scalar (Val.fin y1)).view i).isZero) = false := by
    simp [Arg.length, Arg.view, Arg.slot, Arg.elem, Val.isZero, List.range_succ, hy1.ne']
  have h5b : (List.range (Arg.scalar (Val.fin y2)).length).any
      (fun i => ((Arg.scalar (Val.fin y2)).view i).isZero) = false := by
    simp [Arg.length, Arg.view, Arg.slot, Arg.elem, Val.isZero, List.range_succ, hy2.ne']
  rw [cdf_valid e false false (.vec [.fin y1, .fin y2]) (.scalar (.fin nu0)) rfl h1 rfl h3p rfl h5p,
    cdf_valid e false false (.scalar (.fin y1)) (.scalar (.fin nu0)) rfl h1 rfl h3a rfl h5a,
    cdf_valid e false false (.scalar (.fin y2)) (.scalar (.fin nu0)) rfl h1 rfl h3b rfl h5b]
  refine ⟨_, _, _, rfl, rfl, rfl, ?_⟩
  simp only [foldl_step_P, one_mul]
  have hr2 : List.range (max (Arg.vec [Val.fin y1, Val.fin y2]).length
      (Arg.scalar (Val.fin nu0)).length) = [0, 1] := rfl
  have hr1a : List.range (max (Arg.scalar (Val.fin y1)).length
      (Arg.scalar (Val.fin nu0)).length) = [0] := rfl
  have hr1b : List.range (max (Arg.scalar (Val.fin y2)).length
      (Arg.scalar (Val.fin nu0)).length) = [0] := rfl
  rw [hr2, hr1a, hr1b]
  simp [PnAt, Arg.view, Arg.slot, Arg.elem, Arg.length, Val.toQ]

/-- Witness for the amended C8 at a concrete input: `y1 = 2`, `y2 = 1`,
`nu = 2`. -/
theorem C8_amended_witness :
    ∃ r r1 r2,
      inv_chi_square_cdf extEx false false (.vec [.fin 2, .fin 1]) (.scalar (.fin 2)) = .ok r ∧
      inv_chi_square_cdf extEx false false (.scalar (.fin 2)) (.scalar (.fin 2)) = .ok r1 ∧
      inv_chi_square_cdf extEx false false (.scalar (.fin 1)) (.scalar (.fin 2)) = .ok r2 ∧
      r.value = r1.value * r2.value :=
  C8_amended_value_is_product extEx 2 1 2 (by norm_num) (by norm_num) (by norm_num)

end StanMath
